import Mathlib

/-!
Verification of the bbolt transaction consistency checker (`tx_check.go`).

The Go source is shallowly embedded below.  Page identifiers are naturals,
keys are byte lists, the finding stream (the Go error channel) is a list of
structured `Finding` values in emission order, and the mutable Go maps
(`freed`, `reachable`) are threaded explicitly as functions.  Recursions over
the on-disk page graph (which may be cyclic in a corrupt database) take a
fuel parameter and return `none` when the fuel runs out; all other behavior
follows the source line by line.

External collaborators (the page accessor `tx.page`, the free-list copy, the
pre-order page traversal `tx.forEachPage`, and nested-bucket iteration) are
modelled at the interface documented in the specification, as inputs of the
embedded functions.
-/

/-- A page id (Go `pgid`, an unsigned integer). -/
abbrev Pgid := Nat

/-- A key or value: a byte string, each byte a natural below 256 in real
databases (nothing below depends on the bound). -/
abbrev Key := List Nat

/-- Modelled from the spec: byte-lexicographic comparison of raw keys
(Go `compareKeys`, i.e. `bytes.Compare`); a strict prefix is smaller. -/
def compareKeys : Key → Key → Ordering
  | [], [] => Ordering.eq
  | [], _ :: _ => Ordering.lt
  | _ :: _, [] => Ordering.gt
  | a :: as, b :: bs =>
    if a < b then Ordering.lt
    else if b < a then Ordering.gt
    else compareKeys as bs

/-- `a` is strictly below `b` in the byte-lexicographic order. -/
def keyLt (a b : Key) : Prop := compareKeys a b = Ordering.lt

/-- `a` is at or below `b` in the byte-lexicographic order. -/
def keyLe (a b : Key) : Prop := compareKeys a b ≠ Ordering.gt

/-- Go `branchPageFlag`. -/
def branchPageFlag : Nat := 0x01
/-- Go `leafPageFlag`. -/
def leafPageFlag : Nat := 0x02
/-- Go `metaPageFlag`. -/
def metaPageFlag : Nat := 0x04
/-- Go `freelistPageFlag`. -/
def freelistPageFlag : Nat := 0x10

/-- One element of a branch page: a separator key and the child page id. -/
structure BranchElem where
  key : Key
  pgid : Pgid
deriving DecidableEq

/-- One element of a leaf page: a key and its value. -/
structure LeafElem where
  key : Key
  value : List Nat
deriving DecidableEq

/-- The typed view of a page (Go `page`): its own id, the flag bits, the
overflow count, and the element arrays (the branch array is meaningful when
the branch flag is set, the leaf array when the leaf flag is set). -/
structure Page where
  id : Pgid
  flags : Nat
  overflow : Nat
  branchElems : List BranchElem
  leafElems : List LeafElem
deriving DecidableEq

/-- Modelled from the spec: the page-type name (Go `page.typ`, defined
outside `tx_check.go`); it is used only inside the `invalid type` message. -/
def Page.typ (p : Page) : String :=
  if p.flags &&& branchPageFlag ≠ 0 then "branch"
  else if p.flags &&& leafPageFlag ≠ 0 then "leaf"
  else if p.flags &&& metaPageFlag ≠ 0 then "meta"
  else if p.flags &&& freelistPageFlag ≠ 0 then "freelist"
  else "unknown"

/-- The transaction snapshot as the checker consumes it: the page accessor,
the high-water mark `meta.pgid`, the persisted free-list page id
(`none` models the `pgidNoFreelist` sentinel), and the id list produced by
`freelist.copyall`. -/
structure Tx where
  page : Pgid → Page
  metaPgid : Pgid
  metaFreelist : Option Pgid
  freelistIds : List Pgid

/-- Modelled from the spec: a bucket as the walker sees it — its root page
id (`0` for an inline bucket) and the nested buckets that successfully
decode from its key/value pairs, in iteration order (spec §4.3 step 4 and
the `bucketForEach` / `bucketAt` collaborators of §6). -/
inductive Bucket where
  | node (root : Pgid) (children : List Bucket)

/-- The root page id of a bucket. -/
def Bucket.root : Bucket → Pgid
  | .node r _ => r

/-- The successfully decoded nested buckets of a bucket, in order. -/
def Bucket.children : Bucket → List Bucket
  | .node _ c => c

/-- One diagnostic finding sent on the check channel, carrying exactly the
arguments of the corresponding `fmt.Errorf` in the source.  The `String`
fields hold the output of the injected key stringer (or of `Page.typ`). -/
inductive Finding where
  | alreadyFreed (id : Pgid)
  | outOfBounds (id : Pgid) (hwm : Pgid)
  | multipleReferences (id : Pgid)
  | reachableFreed (id : Pgid)
  | invalidType (id : Pgid) (typName : String)
  | unreachableUnfreed (id : Pgid)
  | branchBelowMin (i : Nat) (keyStr : String) (pg : Pgid) (stack : List Pgid)
  | branchAboveMax (i : Nat) (keyStr : String) (maxStr : String) (pg : Pgid) (stack : List Pgid)
  | leafBelowMin (i : Nat) (keyStr : String) (pg : Pgid) (stack : List Pgid)
  | leafOutOfOrder (i : Nat) (keyStr : String) (pg : Pgid) (prevStr : String) (stack : List Pgid)
  | leafDuplicateKey (i : Nat) (keyStr : String) (pg : Pgid) (prevStr : String) (stack : List Pgid)
  | leafAboveMax (i : Nat) (keyStr : String) (pg : Pgid) (maxStr : String) (stack : List Pgid)
  | unexpectedPageType (pg : Pgid)
deriving DecidableEq

/-- Erase the stringer-formatted text from a finding, keeping its kind and
all structural context (page ids, element index, ancestor stack). -/
def Finding.shape : Finding → Finding
  | .branchBelowMin i _ pg st => .branchBelowMin i "" pg st
  | .branchAboveMax i _ _ pg st => .branchAboveMax i "" "" pg st
  | .leafBelowMin i _ pg st => .leafBelowMin i "" pg st
  | .leafOutOfOrder i _ pg _ st => .leafOutOfOrder i "" pg "" st
  | .leafDuplicateKey i _ pg _ st => .leafDuplicateKey i "" pg "" st
  | .leafAboveMax i _ pg _ st => .leafAboveMax i "" pg "" st
  | f => f

/-- The duplicate scan over the copied free list (`tx.check` lines 27-35):
walk the id list, reporting an id that is already marked and marking every
id seen.  Returns the findings in order and the final `freed` set. -/
def freeScan : List Pgid → (Pgid → Bool) → List Finding × (Pgid → Bool)
  | [], freed => ([], freed)
  | id :: ids, freed =>
    let fs := if freed id then [Finding.alreadyFreed id] else []
    let rest := freeScan ids (fun x => if x = id then true else freed x)
    (fs ++ rest.1, rest.2)

/-- The free-list span seeding loop (`tx.check` lines 42-44): assign
`reachable[fl+i] := page fl` for each offset in the list, in order. -/
def seedSpanGo (tx : Tx) (fl : Pgid) : List Nat → (Pgid → Option Page) → (Pgid → Option Page)
  | [], r => r
  | i :: is, r => seedSpanGo tx fl is (fun x => if x = fl + i then some (tx.page fl) else r x)

/-- Seeding of the reachability tracker (`tx.check` lines 38-45): meta
pages 0 and 1, then — when the free list is persisted — every physical id
in the free-list page span `[fl, fl+overflow]`. -/
def seedReachable (tx : Tx) : Pgid → Option Page :=
  let r0 : Pgid → Option Page :=
    fun x => if x = 1 then some (tx.page 1) else if x = 0 then some (tx.page 0) else none
  match tx.metaFreelist with
  | none => r0
  | some fl => seedSpanGo tx fl (List.range ((tx.page fl).overflow + 1)) r0

/-- Traversal of the children of a branch page, left to right; `recurse`
is the traversal of one child subtree (the fuel-decremented recursion). -/
def forEachPageChildren (recurse : Pgid → Option (List Page)) :
    List BranchElem → Option (List Page)
  | [] => some []
  | e :: es =>
    match recurse e.pgid, forEachPageChildren recurse es with
    | some l, some r => some (l ++ r)
    | _, _ => none

/-- Modelled from the spec: the `tx.forEachPage` collaborator (§6) — the
pre-order, depth-first page-tree traversal driving the bucket walk: visit
the page itself, then recurse into the children of a branch page.  Fuel
bounds the recursion depth; `none` means the fuel ran out. -/
def forEachPageList (tx : Tx) : Nat → Pgid → Option (List Page)
  | 0, _ => none
  | fuel+1, pg =>
    let p := tx.page pg
    if p.flags &&& branchPageFlag ≠ 0 then
      match forEachPageChildren (fun c => forEachPageList tx fuel c) p.branchElems with
      | none => none
      | some rest => some (p :: rest)
    else some [p]

/-- The per-span claim loop of the visit callback (`checkBucket` lines
76-82): for each offset, report the physical id when it is already tracked
and then (unconditionally) record the visited page as its owner. -/
def claimSpan (p : Page) (reachable : Pgid → Option Page) :
    List Nat → List Finding × (Pgid → Option Page)
  | [] => ([], reachable)
  | i :: is =>
    let id := p.id + i
    let fs := if (reachable id).isSome then [Finding.multipleReferences id] else []
    let rest := claimSpan p (fun x => if x = id then some p else reachable x) is
    (fs ++ rest.1, rest.2)

/-- The visit callback of the bucket walk (`checkBucket` lines 70-90):
bounds check against the high-water mark, the claim loop over the physical
span, then the freed / page-type check.  Findings are appended to the
accumulator in emission order. -/
def visitPage (tx : Tx) (freed : Pgid → Bool) (p : Page)
    (acc : List Finding × (Pgid → Option Page)) : List Finding × (Pgid → Option Page) :=
  let ob := if tx.metaPgid < p.id then [Finding.outOfBounds p.id tx.metaPgid] else []
  let cl := claimSpan p acc.2 (List.range (p.overflow + 1))
  let tf :=
    if freed p.id then [Finding.reachableFreed p.id]
    else if p.flags &&& branchPageFlag = 0 ∧ p.flags &&& leafPageFlag = 0 then
      [Finding.invalidType p.id p.typ]
    else []
  (acc.1 ++ ob ++ cl.1 ++ tf, cl.2)

/-- The leaf-page loop of `recursivelyCheckPagesInternal` (lines 145-166):
`i` is the element index, `runningMin` the running lower bound (`none`
models Go `nil`; it is the inherited bound at index 0 and the previous
element key afterwards). -/
def leafLoop (pg : Pgid) (maxKeyOpen : Option Key) (stack : List Pgid) (kts : Key → String) :
    List LeafElem → Nat → Option Key → List Finding
  | [], _, _ => []
  | e :: es, i, runningMin =>
    let f1 :=
      if i = 0 then
        match runningMin with
        | some r =>
          if compareKeys r e.key = Ordering.gt then [Finding.leafBelowMin i (kts e.key) pg stack]
          else []
        | none => []
      else []
    let f2 :=
      if 0 < i ∧ compareKeys (runningMin.getD []) e.key = Ordering.gt then
        [Finding.leafOutOfOrder i (kts e.key) pg (kts (runningMin.getD [])) stack]
      else []
    let f3 :=
      if 0 < i ∧ compareKeys (runningMin.getD []) e.key = Ordering.eq then
        [Finding.leafDuplicateKey i (kts e.key) pg (kts (runningMin.getD [])) stack]
      else []
    let f4 :=
      match maxKeyOpen with
      | some mk =>
        if compareKeys e.key mk ≠ Ordering.lt then
          [Finding.leafAboveMax i (kts e.key) pg (kts mk) stack]
        else []
      | none => []
    f1 ++ f2 ++ f3 ++ f4 ++ leafLoop pg maxKeyOpen stack kts es (i + 1) (some e.key)

/-- The upper bound inherited by a branch child (lines 134-139): the key
of the next element when one remains, else the page's own open bound. -/
def nextSeparator (es : List BranchElem) (maxKeyOpen : Option Key) : Option Key :=
  match es with
  | e2 :: _ => some e2.key
  | [] => maxKeyOpen

/-- The branch-page loop of `recursivelyCheckPagesInternal` (lines
121-143): `i` is the element index, `runningMin` the running lower bound
(updated to each child's returned maximum), `maxSoFar` the `maxKeyInSubtree`
named result assigned on every iteration; `recurse` is the recursion into a
child subtree, taking the child's page id and inherited bounds. -/
def branchLoop (pg : Pgid) (maxKeyOpen : Option Key) (stack : List Pgid) (kts : Key → String)
    (recurse : Pgid → Option Key → Option Key → Option (List Finding × Option Key)) :
    List BranchElem → Nat → Option Key → Option Key → Option (List Finding × Option Key)
  | [], _, _, maxSoFar => some ([], maxSoFar)
  | e :: es, i, runningMin, _ =>
    let f1 :=
      if i = 0 then
        match runningMin with
        | some r =>
          if compareKeys r e.key = Ordering.gt then [Finding.branchBelowMin i (kts e.key) pg stack]
          else []
        | none => []
      else []
    let f2 :=
      match maxKeyOpen with
      | some mk =>
        if compareKeys e.key mk ≠ Ordering.lt then
          [Finding.branchAboveMax i (kts e.key) (kts mk) pg stack]
        else []
      | none => []
    let maxKey : Option Key := nextSeparator es maxKeyOpen
    match recurse e.pgid (some e.key) maxKey with
    | none => none
    | some child =>
      match branchLoop pg maxKeyOpen stack kts recurse es (i + 1) child.2 child.2 with
      | none => none
      | some rest => some (f1 ++ f2 ++ child.1 ++ rest.1, rest.2)

/-- `tx.recursivelyCheckPagesInternal` (lines 112-174): the key-order
validator.  Returns the emitted findings (in order) and the function's
`maxKeyInSubtree` result, or `none` when the fuel runs out. -/
def recursivelyCheckPagesInternal (tx : Tx) :
    Nat → Pgid → Option Key → Option Key → List Pgid → (Key → String) →
    Option (List Finding × Option Key)
  | 0, _, _, _, _, _ => none
  | fuel+1, pg, minKeyClosed, maxKeyOpen, pagesStack, kts =>
    let p := tx.page pg
    let stack := pagesStack ++ [pg]
    if p.flags &&& branchPageFlag ≠ 0 then
      branchLoop pg maxKeyOpen stack kts
        (fun cpg lo hi => recursivelyCheckPagesInternal tx fuel cpg lo hi stack kts)
        p.branchElems 0 minKeyClosed none
    else if p.flags &&& leafPageFlag ≠ 0 then
      some (leafLoop pg maxKeyOpen stack kts p.leafElems 0 minKeyClosed,
        (p.leafElems.getLast?).map (fun e => e.key))
    else
      some ([Finding.unexpectedPageType pg], none)

/-- `tx.recursivelyCheckPages` (lines 108-110): run the key-order validator
from a bucket root with unbounded key interval and an empty ancestor
stack. -/
def recursivelyCheckPages (tx : Tx) (fuel : Nat) (pg : Pgid) (kts : Key → String) :
    Option (List Finding × Option Key) :=
  recursivelyCheckPagesInternal tx fuel pg none none [] kts

mutual
/-- `tx.checkBucket` (lines 62-101): return immediately for an inline
bucket; otherwise run the visit callback over every page of the pre-order
traversal from the root, run the key-order validator, and recurse into the
successfully decoded nested buckets. -/
def checkBucket (tx : Tx) (fuel : Nat) (b : Bucket) (reachable : Pgid → Option Page)
    (freed : Pgid → Bool) (kts : Key → String) :
    Option (List Finding × (Pgid → Option Page)) :=
  match b with
  | .node root children =>
    if root = 0 then some ([], reachable)
    else
      match forEachPageList tx fuel root with
      | none => none
      | some pages =>
        let vp := pages.foldl (fun acc p => visitPage tx freed p acc) ([], reachable)
        match recursivelyCheckPages tx fuel root kts with
        | none => none
        | some kof =>
          match checkBuckets tx fuel children vp.2 freed kts with
          | none => none
          | some cf => some (vp.1 ++ kof.1 ++ cf.1, cf.2)
/-- The nested-bucket recursion of `checkBucket` (lines 95-100), over the
decoded children in iteration order. -/
def checkBuckets (tx : Tx) (fuel : Nat) (bs : List Bucket) (reachable : Pgid → Option Page)
    (freed : Pgid → Bool) (kts : Key → String) :
    Option (List Finding × (Pgid → Option Page)) :=
  match bs with
  | [] => some ([], reachable)
  | b :: rest =>
    match checkBucket tx fuel b reachable freed kts with
    | none => none
    | some rb =>
      match checkBuckets tx fuel rest rb.2 freed kts with
      | none => none
      | some rr => some (rb.1 ++ rr.1, rr.2)
end

/-- The final sweep of `tx.check` (lines 51-56): every id below the
high-water mark that is neither tracked nor freed is reported, in ascending
order. -/
def sweep (tx : Tx) (reachable : Pgid → Option Page) (freed : Pgid → Bool) : List Finding :=
  (List.range tx.metaPgid).filterMap fun i =>
    if (reachable i).isNone && !freed i then some (Finding.unreachableUnfreed i) else none

/-- `tx.check` (lines 22-60): free-list duplicate scan, tracker seeding,
bucket walk from the root bucket, final sweep.  The returned list is the
full finding stream in emission order (`none` when the page-graph fuel ran
out). -/
def txCheck (tx : Tx) (fuel : Nat) (root : Bucket) (kts : Key → String) :
    Option (List Finding) :=
  let fr := freeScan tx.freelistIds (fun _ => false)
  let reachable := seedReachable tx
  match checkBucket tx fuel root reachable fr.2 kts with
  | none => none
  | some bf => some (fr.1 ++ bf.1 ++ sweep tx bf.2 fr.2)

/-- Keys of the subtrees of a list of branch elements, concatenated;
`recurse` collects one child subtree. -/
def subtreeKeysList (recurse : Pgid → Option (List Key)) :
    List BranchElem → Option (List Key)
  | [] => some []
  | e :: es =>
    match recurse e.pgid, subtreeKeysList recurse es with
    | some a, some b => some (a ++ b)
    | _, _ => none

/-- The keys stored in the page subtree rooted at `pg` (the leaf-element
keys of every leaf reached by descending through branch children), in
traversal order; used to state what "the greatest key in the subtree"
means.  Same fuel discipline as the checker itself. -/
def subtreeKeys (tx : Tx) : Nat → Pgid → Option (List Key)
  | 0, _ => none
  | fuel+1, pg =>
    let p := tx.page pg
    if p.flags &&& branchPageFlag ≠ 0 then
      subtreeKeysList (fun c => subtreeKeys tx fuel c) p.branchElems
    else if p.flags &&& leafPageFlag ≠ 0 then some (p.leafElems.map (fun e => e.key))
    else some []

/-- `nonemptyPages` over the children of a list of branch elements;
`recurse` checks one child subtree. -/
def nonemptyPagesList (recurse : Pgid → Option Bool) : List BranchElem → Option Bool
  | [] => some true
  | e :: es =>
    match recurse e.pgid, nonemptyPagesList recurse es with
    | some a, some b => some (a && b)
    | _, _ => none

/-- `some true` when every page of the subtree rooted at `pg` (branch or
leaf) carries at least one element; same fuel discipline as the checker. -/
def nonemptyPages (tx : Tx) : Nat → Pgid → Option Bool
  | 0, _ => none
  | fuel+1, pg =>
    let p := tx.page pg
    if p.flags &&& branchPageFlag ≠ 0 then
      match nonemptyPagesList (fun c => nonemptyPages tx fuel c) p.branchElems with
      | none => none
      | some b => some (!p.branchElems.isEmpty && b)
    else if p.flags &&& leafPageFlag ≠ 0 then some (!p.leafElems.isEmpty)
    else some true

/-- A stringer test double that ignores its input; per the specification it
must not influence defect detection. -/
def kts0 : Key → String := fun _ => ""

/-- An always-false freed set, for concrete instances. -/
def freed0 : Pgid → Bool := fun _ => false

/-- An empty reachability tracker, for concrete instances. -/
def rNone : Pgid → Option Page := fun _ => none

/-- Concrete instances: a leaf page already owned by the tracker... -/
def pageA : Page := Page.mk 5 leafPageFlag 0 [] []

/-- ...and a different page with the same id 5, visited afterwards. -/
def pageB : Page := Page.mk 5 leafPageFlag 0 [] [LeafElem.mk [1] []]

/-- A tracker that already maps id 5 to `pageA`. -/
def rC2 : Pgid → Option Page := fun x => if x = 5 then some pageA else none

/-- A transaction with high-water mark 10 (pages irrelevant). -/
def txC2 : Tx := Tx.mk (fun _ => pageA) 10 none []

/-- A leaf page whose id equals the high-water mark of `txC4`. -/
def pageC4 : Page := Page.mk 5 leafPageFlag 0 [] []

/-- A transaction with high-water mark 5, every page `pageC4`. -/
def txC4 : Tx := Tx.mk (fun _ => pageC4) 5 none []

/-- A page graph on which the key-order validator emits nothing although
the subtree of the second root element holds the key "c" while the first
subtree's maximum is "k": root branch 2 = [("b",3), ("m",4)]; page 3 =
leaf ["b","k"]; page 4 = branch [("m",5), ("c",6)] (the second separator
is never compared to anything since the inherited upper bound is open);
page 5 = empty leaf; page 6 = leaf ["c"]. -/
def txC3 : Tx :=
  Tx.mk
    (fun pg =>
      if pg = 2 then Page.mk 2 branchPageFlag 0 [BranchElem.mk [98] 3, BranchElem.mk [109] 4] []
      else if pg = 3 then Page.mk 3 leafPageFlag 0 [] [LeafElem.mk [98] [], LeafElem.mk [107] []]
      else if pg = 4 then Page.mk 4 branchPageFlag 0 [BranchElem.mk [109] 5, BranchElem.mk [99] 6] []
      else if pg = 5 then Page.mk 5 leafPageFlag 0 [] []
      else Page.mk 6 leafPageFlag 0 [] [LeafElem.mk [99] []])
    20 none []

/-- A single out-of-order leaf ["b","a"] at page 2. -/
def txC6 : Tx :=
  Tx.mk (fun _ => Page.mk 2 leafPageFlag 0 [] [LeafElem.mk [98] [], LeafElem.mk [97] []])
    20 none []

/-- A single well-ordered leaf ["a","b"] at page 2. -/
def txC6w : Tx :=
  Tx.mk (fun _ => Page.mk 2 leafPageFlag 0 [] [LeafElem.mk [97] [], LeafElem.mk [98] []])
    20 none []

/-- A single empty leaf at page 2. -/
def txC6e : Tx :=
  Tx.mk (fun _ => Page.mk 2 leafPageFlag 0 [] []) 20 none []

/-- Meta page 0 of the empty database. -/
def metaP0 : Page := Page.mk 0 metaPageFlag 0 [] []

/-- Meta page 1 of the empty database. -/
def metaP1 : Page := Page.mk 1 metaPageFlag 0 [] []

/-- An empty database: two meta pages, high-water mark 2, no persisted
free list, empty free list. -/
def txEmpty : Tx :=
  Tx.mk (fun pg => if pg = 0 then metaP0 else metaP1) 2 none []

/-- The inline root bucket of the empty database. -/
def bucket0 : Bucket := Bucket.node 0 []

/-- A database whose persisted free-list page sits at id 0 with overflow 1,
so its physical span overlaps both meta-page seeds. -/
def txOverlap : Tx :=
  Tx.mk (fun pg => if pg = 0 then Page.mk 0 freelistPageFlag 1 [] [] else metaP1)
    2 (some 0) []

/-- A self-referential branch page: every page id resolves to a branch
whose single element points back at page 2. -/
def txCyc : Tx :=
  Tx.mk (fun _ => Page.mk 2 branchPageFlag 0 [BranchElem.mk [97] 2] []) 20 none []

/-- A page graph in which every page is the same singleton leaf. -/
def txLeafAll : Tx :=
  Tx.mk (fun _ => Page.mk 3 leafPageFlag 0 [] [LeafElem.mk [97] []]) 20 none []

/-- Erase the formatted text from a key-order result, keeping the returned
maximum key unchanged. -/
def shapePair (o : Option (List Finding × Option Key)) : Option (List Finding × Option Key) :=
  o.map (fun pr => (pr.1.map Finding.shape, pr.2))

/-- Erase the formatted text from a bucket-walk result, keeping the
reachability tracker unchanged. -/
def shapePairR (o : Option (List Finding × (Pgid → Option Page))) :
    Option (List Finding × (Pgid → Option Page)) :=
  o.map (fun pr => (pr.1.map Finding.shape, pr.2))

/-- Induction statement (at one fuel level) for the maximum-key property
of the key-order validator: a run that emits no findings on a subtree with
only nonempty pages returns the greatest subtree key, and every subtree
key respects the inherited bounds. -/
def MaxSpecP (tx : Tx) (fuel : Nat) : Prop :=
  ∀ (pg : Pgid) (lo hi : Option Key) (st : List Pgid) (kts : Key → String) (ret : Option Key),
    recursivelyCheckPagesInternal tx fuel pg lo hi st kts = some ([], ret) →
    nonemptyPages tx fuel pg = some true →
    ∃ ks m, subtreeKeys tx fuel pg = some ks ∧ ret = some m ∧ m ∈ ks
      ∧ (∀ k ∈ ks, keyLe k m)
      ∧ (∀ l, lo = some l → ∀ k ∈ ks, keyLe l k)
      ∧ (∀ h2, hi = some h2 → ∀ k ∈ ks, keyLt k h2)

/-- The companion induction statement for the branch-page loop, with the
recursion instantiated at the same fuel. -/
def MaxSpecQ (tx : Tx) (fuel : Nat) : Prop :=
  ∀ (pg : Pgid) (mko : Option Key) (st st2 : List Pgid) (kts : Key → String)
    (es : List BranchElem) (i : Nat) (rm ms ret : Option Key),
    branchLoop pg mko st kts
      (fun cpg lo hi => recursivelyCheckPagesInternal tx fuel cpg lo hi st2 kts)
      es i rm ms = some ([], ret) →
    nonemptyPagesList (fun c => nonemptyPages tx fuel c) es = some true →
    ∀ e0 rest, es = e0 :: rest →
    ∃ ks m, subtreeKeysList (fun c => subtreeKeys tx fuel c) es = some ks
      ∧ ret = some m ∧ m ∈ ks
      ∧ (∀ k ∈ ks, keyLe k m)
      ∧ (∀ k ∈ ks, keyLe e0.key k)
      ∧ (∀ mk, mko = some mk → ∀ k ∈ ks, keyLt k mk)
      ∧ (i = 0 → ∀ r, rm = some r → keyLe r e0.key)

/-- Induction statement: whatever key the validator returns for a subtree
is one of the subtree's keys (holds even when findings are emitted). -/
def RetMemP (tx : Tx) (fuel : Nat) : Prop :=
  ∀ (pg : Pgid) (lo hi : Option Key) (st : List Pgid) (kts : Key → String)
    (fs : List Finding) (ret : Option Key) (ks : List Key) (m : Key),
    recursivelyCheckPagesInternal tx fuel pg lo hi st kts = some (fs, ret) →
    subtreeKeys tx fuel pg = some ks → ret = some m → m ∈ ks

/-- The companion statement for the branch-page loop. -/
def RetMemQ (tx : Tx) (fuel : Nat) : Prop :=
  ∀ (pg : Pgid) (mko : Option Key) (st st2 : List Pgid) (kts : Key → String)
    (es : List BranchElem) (i : Nat) (rm ms : Option Key) (fs : List Finding)
    (ret : Option Key) (ks : List Key),
    branchLoop pg mko st kts
      (fun cpg lo hi => recursivelyCheckPagesInternal tx fuel cpg lo hi st2 kts)
      es i rm ms = some (fs, ret) →
    subtreeKeysList (fun c => subtreeKeys tx fuel c) es = some ks →
    ∀ m, ret = some m → m ∈ ks ∨ (es = [] ∧ ms = some m)

theorem compareKeys_self : ∀ a : Key, compareKeys a a = Ordering.eq := by
  intro a
  induction a with
  | nil => rfl
  | cons x xs ih => simp [compareKeys, ih]

theorem compareKeys_eq_iff : ∀ a b : Key, compareKeys a b = Ordering.eq ↔ a = b := by
  intro a
  induction a with
  | nil => intro b; cases b <;> simp [compareKeys]
  | cons x xs ih =>
    intro b
    cases b with
    | nil => simp [compareKeys]
    | cons y ys =>
      constructor
      · intro h
        by_cases hxy : x < y
        · simp [compareKeys, hxy] at h
        · by_cases hyx : y < x
          · simp [compareKeys, hxy, hyx] at h
          · have hx : x = y := by omega
            have ht : xs = ys := (ih ys).mp (by simpa [compareKeys, hxy, hyx] using h)
            simp [hx, ht]
      · intro h
        cases h
        exact compareKeys_self _

theorem compareKeys_gt_iff :
    ∀ a b : Key, compareKeys a b = Ordering.gt ↔ compareKeys b a = Ordering.lt := by
  intro a
  induction a with
  | nil => intro b; cases b <;> simp [compareKeys]
  | cons x xs ih =>
    intro b
    cases b with
    | nil => simp [compareKeys]
    | cons y ys =>
      by_cases hxy : x < y
      · have hyx : ¬ y < x := by omega
        simp [compareKeys, hxy, hyx]
      · by_cases hyx : y < x
        · simp [compareKeys, hxy, hyx]
        · simp [compareKeys, hxy, hyx, ih ys]

theorem compareKeys_lt_trans :
    ∀ a b c : Key, compareKeys a b = Ordering.lt → compareKeys b c = Ordering.lt →
      compareKeys a c = Ordering.lt := by
  intro a
  induction a with
  | nil =>
    intro b c hab hbc
    cases b with
    | nil => simp [compareKeys] at hab
    | cons y ys =>
      cases c with
      | nil => simp [compareKeys] at hbc
      | cons z zs => simp [compareKeys]
  | cons x xs ih =>
    intro b c hab hbc
    cases b with
    | nil => simp [compareKeys] at hab
    | cons y ys =>
      cases c with
      | nil => simp [compareKeys] at hbc
      | cons z zs =>
        simp only [compareKeys] at hab hbc ⊢
        by_cases hxy : x < y
        · by_cases hyz : y < z
          · have hxz : x < z := lt_trans hxy hyz
            simp [hxz]
          · by_cases hzy : z < y
            · simp [hyz, hzy] at hbc
            · have hyz2 : y = z := by omega
              subst hyz2
              simp [hxy]
        · by_cases hyx : y < x
          · simp [hxy, hyx] at hab
          · have hxy2 : x = y := by omega
            subst hxy2
            by_cases hxz : x < z
            · simp [hxz]
            · by_cases hzx : z < x
              · simp [hxz, hzx] at hbc
              · simp only [hxy, hxz, hzx, if_neg, if_false]
                simp only [hxy, if_neg] at hab
                simp only [hxz, hzx, if_neg] at hbc
                exact ih ys zs (by simpa using hab) (by simpa using hbc)

theorem keyLe_iff : ∀ a b : Key, keyLe a b ↔ a = b ∨ keyLt a b := by
  intro a b
  unfold keyLe keyLt
  cases h : compareKeys a b with
  | lt => simp
  | eq => simp [← compareKeys_eq_iff, h]
  | gt =>
    simp only [ne_eq, not_true_eq_false, false_iff, not_or]
    constructor
    · intro he
      exact Ordering.noConfusion (((compareKeys_eq_iff a b).mpr he).symm.trans h)
    · intro hl
      exact Ordering.noConfusion hl

theorem keyLe_of_lt {a b : Key} (h : keyLt a b) : keyLe a b :=
  (keyLe_iff a b).mpr (Or.inr h)

theorem keyLe_refl (a : Key) : keyLe a a := (keyLe_iff a a).mpr (Or.inl rfl)

theorem keyLt_trans {a b c : Key} (h1 : keyLt a b) (h2 : keyLt b c) : keyLt a c :=
  compareKeys_lt_trans a b c h1 h2

theorem keyLt_of_le_of_lt {a b c : Key} (h1 : keyLe a b) (h2 : keyLt b c) : keyLt a c := by
  rcases (keyLe_iff a b).mp h1 with h | h
  · cases h; exact h2
  · exact keyLt_trans h h2

theorem keyLt_of_lt_of_le {a b c : Key} (h1 : keyLt a b) (h2 : keyLe b c) : keyLt a c := by
  rcases (keyLe_iff b c).mp h2 with h | h
  · cases h; exact h1
  · exact keyLt_trans h1 h

theorem keyLe_trans {a b c : Key} (h1 : keyLe a b) (h2 : keyLe b c) : keyLe a c := by
  rcases (keyLe_iff a b).mp h1 with h | h
  · cases h; exact h2
  · exact keyLe_of_lt (keyLt_of_lt_of_le h h2)

theorem keyLe_of_not_gt {a b : Key} (h : compareKeys a b ≠ Ordering.gt) : keyLe a b := h

theorem sweep_cond_eq (g : Pgid → Option Page) (f : Pgid → Bool) (n : Pgid) :
    (if (g n).isNone && !f n then some (Finding.unreachableUnfreed n) else none)
      = if g n = none ∧ f n = false then some (Finding.unreachableUnfreed n) else none := by
  by_cases h1 : g n = none <;> by_cases h2 : f n <;> simp [h1, h2]

theorem sweep_count_aux (g : Pgid → Option Page) (f : Pgid → Bool) (i : Pgid) :
    ∀ n, (((List.range n).filterMap fun j =>
        if (g j).isNone && !f j then some (Finding.unreachableUnfreed j) else none).count
          (Finding.unreachableUnfreed i))
      = if i < n ∧ g i = none ∧ f i = false then 1 else 0 := by
  intro n
  induction n with
  | zero => simp
  | succ n ih =>
    rw [List.range_succ, List.filterMap_append, List.count_append, ih]
    have hsing : ((List.filterMap (fun j =>
        if (g j).isNone && !f j then some (Finding.unreachableUnfreed j) else none) [n]).count
          (Finding.unreachableUnfreed i))
        = if i = n ∧ g n = none ∧ f n = false then 1 else 0 := by
      by_cases hc : g n = none ∧ f n = false
      · obtain ⟨hc1, hc2⟩ := hc
        by_cases hin : i = n
        · subst hin
          simp [hc1, hc2, List.count_cons]
        · rw [if_neg (fun h => hin h.1)]
          simp [hc1, hc2, List.count_cons, Ne.symm hin]
      · rw [if_neg (fun h => hc h.2)]
        rcases h1 : g n with _ | v
        · have hf : f n = true := by
            cases h2 : f n
            · exact absurd ⟨h1, h2⟩ hc
            · rfl
          simp [h1, hf]
        · simp [h1]
    rw [hsing]
    by_cases hin : i = n
    · subst hin
      have h1 : ¬(i < i ∧ g i = none ∧ f i = false) := fun h => absurd h.1 (lt_irrefl i)
      rw [if_neg h1, Nat.zero_add]
      by_cases hc : g i = none ∧ f i = false
      · rw [if_pos ⟨rfl, hc⟩, if_pos ⟨Nat.lt_succ_self i, hc⟩]
      · rw [if_neg (fun h => hc h.2), if_neg (fun h => hc h.2)]
    · have hz : (if i = n ∧ g n = none ∧ f n = false then 1 else 0) = 0 :=
        if_neg (fun h => hin h.1)
      have hn : i < n + 1 ↔ i < n :=
        ⟨fun h => Nat.lt_of_le_of_ne (Nat.lt_succ_iff.mp h) hin, fun h => Nat.lt_succ_of_lt h⟩
      have hlt : (i < n + 1 ∧ g i = none ∧ f i = false)
          ↔ (i < n ∧ g i = none ∧ f i = false) := by rw [hn]
      rw [hz, Nat.add_zero, if_congr hlt rfl rfl]

/-- C1: after the bucket walk, the final sweep emits `UnreachableUnfreed(i)`
exactly once for every id `i` below the high-water mark that is neither in
the reachability tracker nor in the freed set, and never otherwise. -/
theorem sweep_unreachable_unfreed (tx : Tx) (r : Pgid → Option Page) (f : Pgid → Bool)
    (i : Pgid) :
    ((sweep tx r f).count (Finding.unreachableUnfreed i)
        = if i < tx.metaPgid ∧ r i = none ∧ f i = false then 1 else 0)
      ∧ ((Finding.unreachableUnfreed i ∈ sweep tx r f)
        ↔ (i < tx.metaPgid ∧ r i = none ∧ f i = false)) := by
  have hc := sweep_count_aux r f i tx.metaPgid
  refine ⟨hc, ?_⟩
  rw [← List.count_pos_iff]
  unfold sweep
  rw [hc]
  by_cases h : i < tx.metaPgid ∧ r i = none ∧ f i = false
  · simp [h]
  · simp [h]

theorem freeScan_count (x : Pgid) : ∀ (ids : List Pgid) (fr : Pgid → Bool),
    ((freeScan ids fr).1.count (Finding.alreadyFreed x))
      = if fr x then ids.count x else ids.count x - 1 := by
  intro ids
  induction ids with
  | nil => intro fr; simp [freeScan]
  | cons id rest ih =>
    intro fr
    simp only [freeScan, List.count_append]
    rw [ih]
    by_cases hx : x = id
    · subst hx
      by_cases hfr : fr x
      · simp only [hfr, List.count_cons, if_pos, List.count_singleton]
        simp [List.count_cons]
        omega
      · simp [hfr, List.count_cons]
    · by_cases hfr : fr id
      · simp [hfr, hx, Ne.symm hx, List.count_cons]
      · simp [hfr, hx, Ne.symm hx, List.count_cons]

theorem freeScan_mem (x : Pgid) : ∀ (ids : List Pgid) (fr : Pgid → Bool),
    (freeScan ids fr).2 x = true ↔ (fr x = true ∨ x ∈ ids) := by
  intro ids
  induction ids with
  | nil => intro fr; simp [freeScan]
  | cons id rest ih =>
    intro fr
    simp only [freeScan]
    rw [ih]
    by_cases hx : x = id
    · subst hx; simp
    · simp [hx]

/-- C5: scanning the copied free list emits exactly `k-1` `DoubleFreed`
findings for an id occurring `k` times (so none when `k ≤ 1`), and the
resulting freed set holds exactly the ids that occur at least once. -/
theorem freeScan_double_freed (ids : List Pgid) (x : Pgid) :
    ((freeScan ids (fun _ => false)).1.count (Finding.alreadyFreed x) = ids.count x - 1)
      ∧ ((freeScan ids (fun _ => false)).2 x = true ↔ x ∈ ids) := by
  constructor
  · rw [freeScan_count]; simp
  · rw [freeScan_mem]; simp

theorem claimSpan_findings_mr : ∀ (l : List Nat) (p : Page) (r : Pgid → Option Page),
    ∀ g ∈ (claimSpan p r l).1, ∃ id, g = Finding.multipleReferences id := by
  intro l
  induction l with
  | nil => intro p r g hg; simp [claimSpan] at hg
  | cons i is ih =>
    intro p r g hg
    simp only [claimSpan, List.mem_append] at hg
    rcases hg with hg | hg
    · by_cases hs : (r (p.id + i)).isSome
      · simp only [hs, if_pos, List.mem_singleton] at hg
        exact ⟨p.id + i, hg⟩
      · simp [hs] at hg
    · exact ih p _ g hg

theorem claimSpan_untouched : ∀ (l : List Nat) (p : Page) (r : Pgid → Option Page) (i : Nat),
    (∀ j ∈ l, j ≠ i) →
    ((claimSpan p r l).2 (p.id + i) = r (p.id + i)
      ∧ Finding.multipleReferences (p.id + i) ∉ (claimSpan p r l).1) := by
  intro l
  induction l with
  | nil => intro p r i _; simp [claimSpan]
  | cons j js ih =>
    intro p r i hne
    have hji : j ≠ i := hne j (List.mem_cons_self j js)
    have hid : p.id + j ≠ p.id + i := fun h => hji (Nat.add_left_cancel h)
    have hrest := ih p (fun x => if x = p.id + j then some p else r x) i
      (fun j2 hj2 => hne j2 (List.mem_cons_of_mem j hj2))
    constructor
    · simp only [claimSpan]
      rw [hrest.1]
      have hne2 : p.id + i ≠ p.id + j := fun h => hid h.symm
      simp only [if_neg hne2]
    · simp only [claimSpan, List.mem_append, not_or]
      refine ⟨?_, hrest.2⟩
      by_cases hs : (r (p.id + j)).isSome
      · simp only [hs, if_pos, List.mem_singleton]
        intro h
        injection h with h2
        exact hid h2.symm
      · simp [hs]

theorem claimSpan_claimed : ∀ (l : List Nat) (p : Page) (r : Pgid → Option Page) (i : Nat),
    i ∈ l → l.Nodup →
    ((claimSpan p r l).2 (p.id + i) = some p
      ∧ ((Finding.multipleReferences (p.id + i) ∈ (claimSpan p r l).1)
        ↔ (r (p.id + i)).isSome = true)) := by
  intro l
  induction l with
  | nil => intro p r i h; simp at h
  | cons j js ih =>
    intro p r i hmem hnd
    have hnd2 := List.nodup_cons.mp hnd
    by_cases hij : i = j
    · subst hij
      have hnotin : ∀ j2 ∈ js, j2 ≠ i := fun j2 hj2 h => hnd2.1 (h ▸ hj2)
      have hrest := claimSpan_untouched js p
        (fun x => if x = p.id + i then some p else r x) i hnotin
      constructor
      · simp only [claimSpan]
        rw [hrest.1]
        simp
      · simp only [claimSpan, List.mem_append]
        constructor
        · intro h
          rcases h with h | h
          · by_cases hs : (r (p.id + i)).isSome
            · exact hs
            · simp [hs] at h
          · exact absurd h hrest.2
        · intro hs
          left
          simp [hs]
    · have hmem2 : i ∈ js := (List.mem_cons.mp hmem).resolve_left hij
      have hid : p.id + i ≠ p.id + j := fun h => hij (Nat.add_left_cancel h)
      have hrest := ih p (fun x => if x = p.id + j then some p else r x) i hmem2 hnd2.2
      have hval : (fun x => if x = p.id + j then some p else r x) (p.id + i) = r (p.id + i) := by
        simp [hid]
      constructor
      · simp only [claimSpan]
        exact hrest.1
      · simp only [claimSpan, List.mem_append]
        rw [hval] at hrest
        constructor
        · intro h
          rcases h with h | h
          · by_cases hs : (r (p.id + j)).isSome
            · simp only [hs, if_pos, List.mem_singleton] at h
              injection h with h2
              exact absurd h2 hid
            · simp [hs] at h
          · exact hrest.2.mp h
        · intro hs
          right
          exact hrest.2.mpr hs

theorem visitPage_mem_mr (tx : Tx) (freed : Pgid → Bool) (p : Page) (r : Pgid → Option Page)
    (id : Pgid) :
    (Finding.multipleReferences id ∈ (visitPage tx freed p ([], r)).1)
      ↔ (Finding.multipleReferences id ∈ (claimSpan p r (List.range (p.overflow + 1))).1) := by
  simp only [visitPage, List.nil_append, List.mem_append]
  constructor
  · intro h
    rcases h with (h | h) | h
    · by_cases hb : tx.metaPgid < p.id
      · simp [hb] at h
      · simp [hb] at h
    · exact h
    · by_cases hf : freed p.id
      · simp [hf] at h
      · by_cases ht : p.flags &&& branchPageFlag = 0 ∧ p.flags &&& leafPageFlag = 0
        · simp [hf, ht] at h
        · simp [hf, ht] at h
  · intro h
    exact Or.inl (Or.inr h)

/-- C2 (amended): for every physical id `p.id + i` in the span of a visited
page, a `MultipleReferences` finding is emitted exactly when the id is
already present in the tracker, and in either case the tracker entry is
overwritten with the newly visited page (the original owner does not
remain). -/
theorem visitPage_claim_span (tx : Tx) (freed : Pgid → Bool) (p : Page)
    (r : Pgid → Option Page) (i : Nat) (h : i ≤ p.overflow) :
    ((visitPage tx freed p ([], r)).2 (p.id + i) = some p)
      ∧ ((Finding.multipleReferences (p.id + i) ∈ (visitPage tx freed p ([], r)).1)
        ↔ (r (p.id + i)).isSome = true) := by
  have hmem : i ∈ List.range (p.overflow + 1) := List.mem_range.mpr (by omega)
  have hc := claimSpan_claimed (List.range (p.overflow + 1)) p r i hmem (List.nodup_range _)
  constructor
  · simp only [visitPage]
    exact hc.1
  · rw [visitPage_mem_mr]
    exact hc.2

/-- C2 (counterexample): page id 5 is already owned by `pageA` in the
tracker; visiting `pageB` (same id) emits `MultipleReferences(5)` but the
tracker entry is overwritten to `pageB` — the original owner does not
remain, contrary to the claim. -/
theorem visitPage_overwrites_owner :
    rC2 5 = some pageA
      ∧ (Finding.multipleReferences 5 ∈ (visitPage txC2 freed0 pageB ([], rC2)).1)
      ∧ (visitPage txC2 freed0 pageB ([], rC2)).2 5 = some pageB
      ∧ pageB ≠ pageA := by
  refine ⟨rfl, ?_, ?_, by decide⟩
  · decide
  · decide

/-- Witness for `visitPage_claim_span` at offset 0 of `pageB`. -/
theorem visitPage_claim_span_witness :
    ((visitPage txC2 freed0 pageB ([], rC2)).2 (pageB.id + 0) = some pageB)
      ∧ ((Finding.multipleReferences (pageB.id + 0) ∈ (visitPage txC2 freed0 pageB ([], rC2)).1)
        ↔ (rC2 (pageB.id + 0)).isSome = true) :=
  visitPage_claim_span txC2 freed0 pageB rC2 0 (by decide)

/-- C4 (amended): the bucket walk emits `OutOfBounds` for a visited page
exactly when its id is strictly above the high-water mark `meta.pgid`; a
page whose id equals `meta.pgid` is not reported. -/
theorem visitPage_out_of_bounds_iff (tx : Tx) (freed : Pgid → Bool) (p : Page)
    (r : Pgid → Option Page) :
    (Finding.outOfBounds p.id tx.metaPgid ∈ (visitPage tx freed p ([], r)).1)
      ↔ tx.metaPgid < p.id := by
  simp only [visitPage, List.nil_append, List.mem_append]
  constructor
  · intro h
    rcases h with (h | h) | h
    · by_cases hb : tx.metaPgid < p.id
      · exact hb
      · simp [hb] at h
    · obtain ⟨id2, hg⟩ := claimSpan_findings_mr _ p r _ h
      exact Finding.noConfusion hg
    · by_cases hf : freed p.id
      · simp [hf] at h
      · by_cases ht : p.flags &&& branchPageFlag = 0 ∧ p.flags &&& leafPageFlag = 0
        · simp [hf, ht] at h
        · simp [hf, ht] at h
  · intro h
    exact Or.inl (Or.inl (by simp [h]))

/-- C4 (counterexample): a visited page whose id equals the high-water mark
exactly (`id = meta.pgid = 5`) produces no finding at all — in particular
no `OutOfBounds` — because the source compares with strict `>`. -/
theorem visitPage_at_hwm_not_reported :
    pageC4.id = txC4.metaPgid
      ∧ (visitPage txC4 freed0 pageC4 ([], rNone)).1 = [] := by
  refine ⟨rfl, ?_⟩
  decide

theorem checkBucket_root_zero (tx : Tx) (fuel : Nat) (b : Bucket) (r : Pgid → Option Page)
    (f : Pgid → Bool) (kts : Key → String) (h : b.root = 0) :
    checkBucket tx fuel b r f kts = some ([], r) := by
  cases b with
  | node root children =>
    simp only [Bucket.root] at h
    simp [checkBucket, h]

theorem freeScan_findings_kind : ∀ (ids : List Pgid) (fr : Pgid → Bool),
    ∀ g ∈ (freeScan ids fr).1, ∃ id, g = Finding.alreadyFreed id := by
  intro ids
  induction ids with
  | nil => intro fr g hg; simp [freeScan] at hg
  | cons id rest ih =>
    intro fr g hg
    simp only [freeScan, List.mem_append] at hg
    rcases hg with hg | hg
    · by_cases hf : fr id
      · simp only [hf, if_pos, List.mem_singleton] at hg
        exact ⟨id, hg⟩
      · simp [hf] at hg
    · exact ih _ g hg

theorem sweep_findings_kind (tx : Tx) (r : Pgid → Option Page) (f : Pgid → Bool) :
    ∀ g ∈ sweep tx r f, ∃ id, g = Finding.unreachableUnfreed id := by
  intro g hg
  unfold sweep at hg
  obtain ⟨a, _, ha⟩ := List.mem_filterMap.mp hg
  by_cases hc : (r a).isNone && !f a
  · rw [if_pos hc] at ha
    exact ⟨a, (Option.some.injEq _ _ ▸ ha).symm⟩
  · rw [if_neg hc] at ha
    exact Option.noConfusion ha

/-- C8: an inline bucket (root page id 0) makes `checkBucket` return at
once — no findings, reachability tracker unchanged — and consequently any
empty database (high-water mark 2, no persisted free list, empty free
list, inline root bucket) produces zero findings. -/
theorem checkBucket_inline (tx : Tx) (fuel : Nat) (b : Bucket) (r : Pgid → Option Page)
    (f : Pgid → Bool) (kts : Key → String) (h : b.root = 0) :
    checkBucket tx fuel b r f kts = some ([], r)
      ∧ (tx.metaPgid = 2 → tx.metaFreelist = none → tx.freelistIds = [] →
          txCheck tx fuel b kts = some []) := by
  refine ⟨checkBucket_root_zero tx fuel b r f kts h, ?_⟩
  intro h2 h3 h4
  have hseed : seedReachable tx = fun x =>
      if x = 1 then some (tx.page 1) else if x = 0 then some (tx.page 0) else none := by
    simp only [seedReachable, h3]
  have hrange : List.range tx.metaPgid = [0, 1] := by rw [h2]; decide
  have hsweep : ∀ fr : Pgid → Bool, sweep tx (seedReachable tx) fr = [] := by
    intro fr
    unfold sweep
    rw [hrange, hseed]
    simp
  simp only [txCheck, h4, checkBucket_root_zero tx fuel b _ _ kts h, hsweep]
  simp [freeScan]

/-- Witness for `checkBucket_inline` on the concrete empty database. -/
theorem checkBucket_inline_witness :
    checkBucket txEmpty 1 bucket0 (seedReachable txEmpty) freed0 kts0
        = some ([], seedReachable txEmpty)
      ∧ txCheck txEmpty 1 bucket0 kts0 = some [] := by
  have h := checkBucket_inline txEmpty 1 bucket0 (seedReachable txEmpty) freed0 kts0 rfl
  exact ⟨h.1, h.2 rfl rfl rfl⟩

theorem seedSpanGo_sets : ∀ (l : List Nat) (tx : Tx) (fl : Pgid) (r : Pgid → Option Page)
    (x : Pgid),
    (seedSpanGo tx fl l r x = some (tx.page fl))
      ∨ (seedSpanGo tx fl l r x = r x ∧ ∀ j ∈ l, fl + j ≠ x) := by
  intro l
  induction l with
  | nil => intro tx fl r x; right; exact ⟨rfl, by simp⟩
  | cons i is ih =>
    intro tx fl r x
    simp only [seedSpanGo]
    rcases ih tx fl (fun x2 => if x2 = fl + i then some (tx.page fl) else r x2) x with h | ⟨heq, hnone⟩
    · left; exact h
    · by_cases hx : fl + i = x
      · left
        rw [heq, if_pos hx.symm]
      · right
        refine ⟨heq.trans (if_neg (fun hh => hx hh.symm)), ?_⟩
        intro j hj
        rcases List.mem_cons.mp hj with hj | hj
        · subst hj; exact hx
        · exact hnone j hj

/-- C10: tracker seeding is unconditional and silent — (1) when the free
list is persisted, every id of its span ends up owned by the free-list
page, even where it overwrites the meta-page seeds; (2) the two meta ids
are always seeded; (3) before the bucket walk no duplicate detection
happens: a run whose root bucket is inline emits no `MultipleReferences`
finding at all. -/
theorem seeding_unconditional_and_silent :
    (∀ (tx : Tx) (fl : Pgid) (i : Nat), tx.metaFreelist = some fl →
        i ≤ (tx.page fl).overflow → seedReachable tx (fl + i) = some (tx.page fl))
      ∧ (∀ (tx : Tx) (id : Pgid), (id = 0 ∨ id = 1) → (seedReachable tx id).isSome = true)
      ∧ (∀ (tx : Tx) (fuel : Nat) (b : Bucket) (kts : Key → String) (fs : List Finding),
          b.root = 0 → txCheck tx fuel b kts = some fs →
          ∀ id, Finding.multipleReferences id ∉ fs) := by
  refine ⟨?_, ?_, ?_⟩
  · intro tx fl i h1 h2
    simp only [seedReachable, h1]
    rcases seedSpanGo_sets (List.range ((tx.page fl).overflow + 1)) tx fl _ (fl + i) with
      h | ⟨_, hnone⟩
    · exact h
    · exact absurd rfl (hnone i (List.mem_range.mpr (by omega)))
  · intro tx id hid
    have hr0 : ∀ x, (x = 0 ∨ x = 1) →
        ((fun x => if x = 1 then some (tx.page 1)
          else if x = 0 then some (tx.page 0) else none) x : Option Page).isSome = true := by
      intro x hx
      rcases hx with hx | hx <;> subst hx <;> simp
    cases hfl : tx.metaFreelist with
    | none =>
      simp only [seedReachable, hfl]
      exact hr0 id hid
    | some fl =>
      simp only [seedReachable, hfl]
      rcases seedSpanGo_sets (List.range ((tx.page fl).overflow + 1)) tx fl _ id with
        h | ⟨heq, _⟩
      · rw [h]; rfl
      · rw [heq]; exact hr0 id hid
  · intro tx fuel b kts fs hroot hck id hmem
    simp only [txCheck, checkBucket_root_zero tx fuel b _ _ kts hroot,
      Option.some.injEq] at hck
    rw [← hck] at hmem
    simp only [List.append_nil, List.mem_append] at hmem
    rcases hmem with hmem | hmem
    · obtain ⟨id2, hkind⟩ := freeScan_findings_kind _ _ _ hmem
      exact Finding.noConfusion hkind
    · obtain ⟨id2, hkind⟩ := sweep_findings_kind _ _ _ _ hmem
      exact Finding.noConfusion hkind

/-- Witness for `seeding_unconditional_and_silent`: the free-list span of
`txOverlap` covers ids 0 and 1, and its seeds overwrite the meta seeds. -/
theorem seeding_unconditional_and_silent_witness :
    seedReachable txOverlap (0 + 1) = some (txOverlap.page 0)
      ∧ (seedReachable txOverlap 0).isSome = true
      ∧ Finding.multipleReferences 0 ∉ ([] : List Finding) :=
  ⟨seeding_unconditional_and_silent.1 txOverlap 0 1 rfl (by decide),
   seeding_unconditional_and_silent.2.1 txOverlap 0 (Or.inl rfl),
   seeding_unconditional_and_silent.2.2 txOverlap 1 bucket0 kts0 [] rfl (by decide) 0⟩

theorem branchLoop_isSome (pg : Pgid) (mko : Option Key) (st : List Pgid) (kts : Key → String)
    (recurse : Pgid → Option Key → Option Key → Option (List Finding × Option Key)) :
    ∀ (es : List BranchElem) (i : Nat) (rm ms : Option Key),
    (∀ e ∈ es, ∀ lo hi, (recurse e.pgid lo hi).isSome = true) →
    (branchLoop pg mko st kts recurse es i rm ms).isSome = true := by
  intro es
  induction es with
  | nil => intro i rm ms _; simp [branchLoop]
  | cons e es2 ih =>
    intro i rm ms h
    simp only [branchLoop]
    cases es2 with
    | nil =>
      have hchild := h e (List.mem_cons_self e []) (some e.key) mko
      obtain ⟨c, hc⟩ := Option.isSome_iff_exists.mp hchild
      have hrest : (branchLoop pg mko st kts recurse [] (i + 1) c.2 c.2).isSome = true :=
        ih (i + 1) c.2 c.2 (fun e2 he2 => absurd he2 (List.not_mem_nil e2))
      obtain ⟨rr, hrr⟩ := Option.isSome_iff_exists.mp hrest
      simp [nextSeparator, hc, hrr]
    | cons e2 es3 =>
      have hchild := h e (List.mem_cons_self _ _) (some e.key) (some e2.key)
      obtain ⟨c, hc⟩ := Option.isSome_iff_exists.mp hchild
      have hrest := ih (i + 1) c.2 c.2 (fun e3 he3 => h e3 (List.mem_cons_of_mem e he3))
      obtain ⟨rr, hrr⟩ := Option.isSome_iff_exists.mp hrest
      simp [nextSeparator, hc, hrr]

/-- C9: the key-order recursion terminates exactly on tree-shaped page
graphs — (1) whenever a height certificate over the child relation exists,
the recursion completes within fuel above the root's height; (2) on a page
graph with a self-referential branch page it exhausts every finite fuel
(the recursion carries no visited-set guard of its own). -/
theorem recursivelyCheckPages_termination :
    (∀ (tx : Tx) (h : Pgid → Nat) (kts : Key → String),
        (∀ pg e, (tx.page pg).flags &&& branchPageFlag ≠ 0 →
          e ∈ (tx.page pg).branchElems → h e.pgid < h pg) →
        ∀ (fuel : Nat) (pg : Pgid) (lo hi : Option Key) (st : List Pgid), h pg < fuel →
          (recursivelyCheckPagesInternal tx fuel pg lo hi st kts).isSome = true)
      ∧ (∀ (fuel : Nat) (lo hi : Option Key) (st : List Pgid),
          recursivelyCheckPagesInternal txCyc fuel 2 lo hi st kts0 = none) := by
  constructor
  · intro tx h kts hacyc fuel
    induction fuel with
    | zero => intro pg lo hi st hlt; omega
    | succ f ih =>
      intro pg lo hi st hlt
      by_cases hb : (tx.page pg).flags &&& branchPageFlag ≠ 0
      · simp only [recursivelyCheckPagesInternal, if_pos hb]
        apply branchLoop_isSome
        intro e he lo2 hi2
        apply ih
        have := hacyc pg e hb he
        omega
      · have hb2 : ((tx.page pg).flags &&& branchPageFlag ≠ 0) = False := by
          simp only [eq_iff_iff, iff_false]
          exact not_not_intro (not_ne_iff.mp hb)
        by_cases hl : (tx.page pg).flags &&& leafPageFlag ≠ 0
        · simp [recursivelyCheckPagesInternal, hb2, hl]
        · simp [recursivelyCheckPagesInternal, hb2, hl]
  · intro fuel
    induction fuel with
    | zero => intro lo hi st; simp [recursivelyCheckPagesInternal]
    | succ f ih =>
      intro lo hi st
      have hpage : txCyc.page 2 = Page.mk 2 branchPageFlag 0 [BranchElem.mk [97] 2] [] := rfl
      simp only [recursivelyCheckPagesInternal, hpage]
      simp [branchPageFlag, branchLoop.eq_def, ih]

/-- Witness for `recursivelyCheckPages_termination`: a constant-leaf page
graph with the zero height certificate, and the self-loop at fuel 3. -/
theorem recursivelyCheckPages_termination_witness :
    (recursivelyCheckPagesInternal txLeafAll 1 0 none none [] kts0).isSome = true
      ∧ recursivelyCheckPagesInternal txCyc 3 2 none none [] kts0 = none :=
  ⟨recursivelyCheckPages_termination.1 txLeafAll (fun _ => 0) kts0
      (fun pg e hb _ => absurd (show (2 : Nat) &&& 1 = 0 by decide) hb) 1 0 none none []
      (by decide),
   recursivelyCheckPages_termination.2 3 none none []⟩

theorem keyLt_of_checks {a b : Key} (hg : compareKeys a b ≠ Ordering.gt)
    (he : compareKeys a b ≠ Ordering.eq) : keyLt b a = False ∧ keyLt a b := by
  constructor
  · simp only [keyLt, eq_iff_iff, iff_false]
    intro hba
    exact hg ((compareKeys_gt_iff a b).mpr hba)
  · unfold keyLt
    cases h : compareKeys a b with
    | lt => rfl
    | eq => exact absurd h he
    | gt => exact absurd h hg

/-- C3 (amended): the child's returned `maxKeyInSubtree` is assigned to the
running lower bound, but that variable is consulted only at element index 0
(where it still holds the inherited `minKeyClosed`); for every index
`i ≠ 0` the branch loop behaves identically for any running bound, so a
sibling subtree is checked only against its own separator key, never
against the previous subtree's maximum. -/
theorem branchLoop_running_min_dead (pg : Pgid) (mko : Option Key) (st : List Pgid)
    (kts : Key → String)
    (recurse : Pgid → Option Key → Option Key → Option (List Finding × Option Key))
    (es : List BranchElem) (i : Nat) (rm1 rm2 ms : Option Key) (h : i ≠ 0) :
    branchLoop pg mko st kts recurse es i rm1 ms
      = branchLoop pg mko st kts recurse es i rm2 ms := by
  cases es with
  | nil => rfl
  | cons e es2 => simp only [branchLoop, if_neg h]

/-- Witness for `branchLoop_running_min_dead` at index 1. -/
theorem branchLoop_running_min_dead_witness :
    branchLoop 2 none [] kts0 (fun _ _ _ => some ([], none))
        [BranchElem.mk [97] 3] 1 (some [107]) none
      = branchLoop 2 none [] kts0 (fun _ _ _ => some ([], none))
        [BranchElem.mk [97] 3] 1 none none :=
  branchLoop_running_min_dead 2 none [] kts0 (fun _ _ _ => some ([], none))
    [BranchElem.mk [97] 3] 1 (some [107]) none none (by decide)

/-- C3 (counterexample): on `txC3`, the recursion into root element 0's
child (page 3, bounds "b" and "m") returns maximum "k" = [107]; root
element 1's subtree (page 4) contains the key "c" = [99], strictly below
that maximum — the claim demands a finding — yet the key-order check from
the root (page 2) emits no finding at all. -/
theorem branch_sibling_below_prev_max_unreported :
    recursivelyCheckPagesInternal txC3 9 3 (some [98]) (some [109]) [2] kts0
        = some ([], some [107])
      ∧ subtreeKeys txC3 9 4 = some [[99]]
      ∧ compareKeys [99] [107] = Ordering.lt
      ∧ recursivelyCheckPages txC3 10 2 kts0 = some ([], some [99]) :=
  ⟨by decide, by decide, by decide, by decide⟩

theorem leafLoop_nil_facts (pg : Pgid) (mko : Option Key) (st : List Pgid) (kts : Key → String) :
    ∀ (es : List LeafElem) (i : Nat) (rm : Option Key),
    leafLoop pg mko st kts es i rm = [] →
    ((∀ mk, mko = some mk → ∀ e ∈ es, keyLt e.key mk)
      ∧ (∀ r, rm = some r → ∀ e ∈ es, (i = 0 → keyLe r e.key) ∧ (i ≠ 0 → keyLt r e.key))
      ∧ (∀ el, es.getLast? = some el → ∀ e ∈ es, keyLe e.key el.key)) := by
  intro es
  induction es with
  | nil => intro i rm _; exact ⟨by simp, by simp, by simp⟩
  | cons e es2 ih =>
    intro i rm hnil
    simp only [leafLoop, List.append_eq_nil] at hnil
    obtain ⟨⟨⟨⟨hf1, hf2⟩, hf3⟩, hf4⟩, hrec⟩ := hnil
    have hfacts := ih (i + 1) (some e.key) hrec
    have htail : ∀ e2 ∈ es2, keyLt e.key e2.key := by
      intro e2 he2
      exact ((hfacts.2.1 e.key rfl e2 he2).2 (Nat.succ_ne_zero i))
    have hheadup : ∀ mk, mko = some mk → keyLt e.key mk := by
      intro mk hmk
      rw [hmk] at hf4
      by_cases hcmp : compareKeys e.key mk ≠ Ordering.lt
      · simp [hcmp] at hf4
      · exact not_not.mp hcmp
    have hheadlow : ∀ r, rm = some r → (i = 0 → keyLe r e.key) ∧ (i ≠ 0 → keyLt r e.key) := by
      intro r hrm
      subst hrm
      simp only [Option.getD_some] at hf2 hf3
      constructor
      · intro hi0
        subst hi0
        simp only [if_pos rfl] at hf1
        by_cases hcmp : compareKeys r e.key = Ordering.gt
        · simp [hcmp] at hf1
        · exact hcmp
      · intro hi
        have hpos : 0 < i := Nat.pos_of_ne_zero hi
        have hg : compareKeys r e.key ≠ Ordering.gt := by
          intro hc
          rw [if_pos ⟨hpos, hc⟩] at hf2
          exact List.noConfusion hf2
        have he : compareKeys r e.key ≠ Ordering.eq := by
          intro hc
          rw [if_pos ⟨hpos, hc⟩] at hf3
          exact List.noConfusion hf3
        exact (keyLt_of_checks hg he).2
    refine ⟨?_, ?_, ?_⟩
    · intro mk hmk e2 he2
      rcases List.mem_cons.mp he2 with he2 | he2
      · subst he2; exact hheadup mk hmk
      · exact hfacts.1 mk hmk e2 he2
    · intro r hrm e2 he2
      rcases List.mem_cons.mp he2 with he2 | he2
      · subst he2; exact hheadlow r hrm
      · have hte2 := htail e2 he2
        constructor
        · intro hi0
          exact keyLe_of_lt (keyLt_of_le_of_lt ((hheadlow r hrm).1 hi0) hte2)
        · intro hi
          exact keyLt_trans ((hheadlow r hrm).2 hi) hte2
    · intro el hel e2 he2
      cases es2 with
      | nil =>
        have : el = e := by
          have h1 : ([e] : List LeafElem).getLast? = some e := rfl
          rw [h1] at hel
          exact (Option.some.injEq _ _ ▸ hel).symm
        subst this
        rcases List.mem_cons.mp he2 with he2 | he2
        · subst he2; exact keyLe_refl _
        · exact absurd he2 (List.not_mem_nil e2)
      | cons e3 es3 =>
        rw [List.getLast?_cons_cons] at hel
        have helmem : el ∈ e3 :: es3 := by
          have : el ∈ (e3 :: es3).getLast? := hel ▸ rfl
          exact List.mem_of_mem_getLast? this
        rcases List.mem_cons.mp he2 with he2 | he2
        · subst he2
          exact keyLe_of_lt (htail el helmem)
        · exact hfacts.2.2 el hel e2 he2

theorem retMemQ_of_P (tx : Tx) (fuel : Nat) (hP : RetMemP tx fuel) : RetMemQ tx fuel := by
  unfold RetMemQ
  intro pg mko st st2 kts es
  induction es with
  | nil =>
    intro i rm ms fs ret ks hbl hks m hret
    simp only [branchLoop] at hbl
    injection hbl with h1
    have hms : ms = ret := congrArg Prod.snd h1
    exact Or.inr ⟨rfl, hms.trans hret⟩
  | cons e es2 ih =>
    intro i rm ms fs ret ks hbl hks m hret
    simp only [branchLoop] at hbl
    simp only [subtreeKeysList] at hks
    split at hbl
    · exact Option.noConfusion hbl
    · rename_i child hchild
      split at hbl
      · exact Option.noConfusion hbl
      · rename_i rest2 hrest2
        injection hbl with h1
        have hret2 : rest2.2 = ret := congrArg Prod.snd h1
        cases hca : subtreeKeys tx fuel e.pgid with
        | none => rw [hca] at hks; simp at hks
        | some a =>
          cases hcb : subtreeKeysList (fun c => subtreeKeys tx fuel c) es2 with
          | none => rw [hca, hcb] at hks; simp at hks
          | some b =>
            rw [hca, hcb] at hks
            have hksv : a ++ b = ks := Option.some.injEq _ _ ▸ hks
            rcases ih (i + 1) child.2 child.2 rest2.1 rest2.2 b hrest2 hcb m
                (hret2.trans hret) with hmb | ⟨_, hcm⟩
            · rw [← hksv]
              exact Or.inl (List.mem_append_right a hmb)
            · have hma : m ∈ a :=
                hP e.pgid (some e.key) _ st2 kts child.1 child.2 a m hchild hca hcm
              rw [← hksv]
              exact Or.inl (List.mem_append_left b hma)

theorem retMemP_all : ∀ (tx : Tx) (fuel : Nat), RetMemP tx fuel := by
  intro tx fuel
  induction fuel with
  | zero =>
    intro pg lo hi st kts fs ret ks m hint
    simp [recursivelyCheckPagesInternal] at hint
  | succ f ih =>
    have hQ := retMemQ_of_P tx f ih
    intro pg lo hi st kts fs ret ks m hint hks hret
    simp only [recursivelyCheckPagesInternal] at hint
    simp only [subtreeKeys] at hks
    by_cases hb : (tx.page pg).flags &&& branchPageFlag ≠ 0
    · rw [if_pos hb] at hint
      rw [if_pos hb] at hks
      rcases hQ pg hi (st ++ [pg]) (st ++ [pg]) kts (tx.page pg).branchElems 0 lo none
          fs ret ks hint hks m hret with hm | ⟨_, hms⟩
      · exact hm
      · exact Option.noConfusion hms
    · rw [if_neg hb] at hint
      rw [if_neg hb] at hks
      by_cases hl : (tx.page pg).flags &&& leafPageFlag ≠ 0
      · rw [if_pos hl] at hint
        rw [if_pos hl] at hks
        injection hint with h1
        have hretl : ((tx.page pg).leafElems.getLast?).map (fun e => e.key) = ret :=
          congrArg Prod.snd h1
        rw [← hretl] at hret
        cases hgl : (tx.page pg).leafElems.getLast? with
        | none => rw [hgl] at hret; exact Option.noConfusion hret
        | some el =>
          rw [hgl] at hret
          have hmel : el.key = m := Option.some.injEq _ _ ▸ hret
          have hksl : (tx.page pg).leafElems.map (fun e => e.key) = ks :=
            Option.some.injEq _ _ ▸ hks
          rw [← hksl, ← hmel]
          exact List.mem_map_of_mem _ (List.mem_of_mem_getLast? (hgl ▸ rfl))
      · rw [if_neg hl] at hint
        injection hint with h1
        have hnone : (none : Option Key) = ret := congrArg Prod.snd h1
        rw [← hnone] at hret
        exact Option.noConfusion hret

theorem maxSpecQ_of_P (tx : Tx) (fuel : Nat) (hP : MaxSpecP tx fuel) : MaxSpecQ tx fuel := by
  unfold MaxSpecQ
  intro pg mko st st2 kts es
  induction es with
  | nil =>
    intro i rm ms ret hbl hne e0 rest heq
    exact List.noConfusion heq
  | cons e es2 ih =>
    intro i rm ms ret hbl hne e0 rest heq
    injection heq with he0 hrest0
    subst he0
    subst hrest0
    cases hna : nonemptyPages tx fuel e.pgid with
    | none => rw [nonemptyPagesList, hna] at hne; simp at hne
    | some a =>
    cases hnb : nonemptyPagesList (fun c => nonemptyPages tx fuel c) es2 with
    | none => rw [nonemptyPagesList, hna, hnb] at hne; simp at hne
    | some b =>
    rw [nonemptyPagesList, hna, hnb] at hne
    have hab : (a && b) = true := Option.some.injEq _ _ ▸ hne
    obtain ⟨ha, hb2⟩ := (Bool.and_eq_true a b) ▸ hab
    rw [ha] at hna
    rw [hb2] at hnb
    simp only [branchLoop] at hbl
    split at hbl
    · exact Option.noConfusion hbl
    · rename_i child hchild
      split at hbl
      · exact Option.noConfusion hbl
      · rename_i rest2 hrest2
        injection hbl with h1
        have hfs := congrArg Prod.fst h1
        have hret2 : rest2.2 = ret := congrArg Prod.snd h1
        simp only [List.append_eq_nil] at hfs
        obtain ⟨⟨⟨hf1, hf2⟩, hc1⟩, hr1⟩ := hfs
        have hpr : child = ([], child.2) := Prod.ext hc1 rfl
        rw [hpr] at hchild
        obtain ⟨cks, cm, hcks, hcm, hcmmem, hcmax, hclow, hcup⟩ :=
          hP e.pgid (some e.key) _ st2 kts child.2 hchild hna
        have hclowk : ∀ k ∈ cks, keyLe e.key k := fun k hk => hclow e.key rfl k hk
        have hi0fact : i = 0 → ∀ r, rm = some r → keyLe r e.key := by
          intro hi0 r hrm
          subst hi0
          subst hrm
          simp only [if_pos rfl] at hf1
          by_cases hcmp : compareKeys r e.key = Ordering.gt
          · simp [hcmp] at hf1
          · exact hcmp
        cases es2 with
        | nil =>
          simp only [branchLoop] at hrest2
          injection hrest2 with h2
          have hretv : ret = some cm := by
            rw [← hret2, ← congrArg Prod.snd h2]
            exact hcm
          refine ⟨cks ++ [], cm, ?_, hretv, ?_, ?_, ?_, ?_, hi0fact⟩
          · simp only [subtreeKeysList, hcks]
          · exact List.mem_append_left [] hcmmem
          · intro k hk
            rcases List.mem_append.mp hk with hk | hk
            · exact hcmax k hk
            · exact absurd hk (List.not_mem_nil k)
          · intro k hk
            rcases List.mem_append.mp hk with hk | hk
            · exact hclowk k hk
            · exact absurd hk (List.not_mem_nil k)
          · intro mk hmk k hk
            rcases List.mem_append.mp hk with hk | hk
            · exact hcup mk hmk k hk
            · exact absurd hk (List.not_mem_nil k)
        | cons e2 es3 =>
          have hbl2 : branchLoop pg mko st kts
              (fun cpg lo hi => recursivelyCheckPagesInternal tx fuel cpg lo hi st2 kts)
              (e2 :: es3) (i + 1) child.2 child.2 = some ([], rest2.2) := by
            have hpr : rest2 = ([], rest2.2) := Prod.ext hr1 rfl
            rw [← hpr]
            exact hrest2
          obtain ⟨ks2, m2, hks2, hret3, hm2mem, hmax2, hlow2, hup2, _⟩ :=
            ih (i + 1) child.2 child.2 rest2.2 hbl2 hnb e2 es3 rfl
          have hcupE : ∀ k ∈ cks, keyLt k e2.key := fun k hk => hcup e2.key rfl k hk
          have he2m2 : keyLe e2.key m2 := hlow2 m2 hm2mem
          have hretv : ret = some m2 := by rw [← hret2]; exact hret3
          refine ⟨cks ++ ks2, m2, ?_, hretv, ?_, ?_, ?_, ?_, hi0fact⟩
          · simp only [subtreeKeysList] at hks2
            simp only [subtreeKeysList, hcks, hks2]
          · exact List.mem_append_right cks hm2mem
          · intro k hk
            rcases List.mem_append.mp hk with hk | hk
            · exact keyLe_of_lt (keyLt_of_lt_of_le (hcupE k hk) he2m2)
            · exact hmax2 k hk
          · intro k hk
            rcases List.mem_append.mp hk with hk | hk
            · exact hclowk k hk
            · have hlt : keyLt e.key e2.key :=
                keyLt_of_le_of_lt (hclowk cm hcmmem) (hcupE cm hcmmem)
              exact keyLe_trans (keyLe_of_lt hlt) (hlow2 k hk)
          · intro mk hmk k hk
            rcases List.mem_append.mp hk with hk | hk
            · exact keyLt_trans (keyLt_of_lt_of_le (hcupE k hk) he2m2) (hup2 mk hmk m2 hm2mem)
            · exact hup2 mk hmk k hk

theorem maxSpecP_all : ∀ (tx : Tx) (fuel : Nat), MaxSpecP tx fuel := by
  intro tx fuel
  induction fuel with
  | zero =>
    intro pg lo hi st kts ret hint
    simp [recursivelyCheckPagesInternal] at hint
  | succ f ih =>
    have hQ := maxSpecQ_of_P tx f ih
    intro pg lo hi st kts ret hint hne
    simp only [recursivelyCheckPagesInternal] at hint
    simp only [nonemptyPages] at hne
    simp only [subtreeKeys]
    by_cases hb : (tx.page pg).flags &&& branchPageFlag ≠ 0
    · rw [if_pos hb] at hint
      rw [if_pos hb] at hne
      rw [if_pos hb]
      cases hnl : nonemptyPagesList (fun c => nonemptyPages tx f c) (tx.page pg).branchElems with
      | none => rw [hnl] at hne; exact Option.noConfusion hne
      | some bb =>
        rw [hnl] at hne
        have h2 : (!(tx.page pg).branchElems.isEmpty && bb) = true := Option.some.injEq _ _ ▸ hne
        obtain ⟨hni, hbb⟩ := (Bool.and_eq_true _ _) ▸ h2
        rw [hbb] at hnl
        have hnonnil : (tx.page pg).branchElems ≠ [] := by
          intro hh
          rw [hh] at hni
          simp at hni
        cases helems : (tx.page pg).branchElems with
        | nil => exact absurd helems hnonnil
        | cons e0 rest =>
          rw [helems] at hint
          rw [helems] at hnl
          obtain ⟨ks, m, hks, hret, hmem, hmax, hlow, hup, hi0⟩ :=
            hQ pg hi (st ++ [pg]) (st ++ [pg]) kts (e0 :: rest) 0 lo none ret hint hnl e0 rest rfl
          refine ⟨ks, m, hks, hret, hmem, hmax, ?_, hup⟩
          intro l hlo k hk
          exact keyLe_trans (hi0 rfl l hlo) (hlow k hk)
    · rw [if_neg hb] at hint
      rw [if_neg hb] at hne
      rw [if_neg hb]
      by_cases hl : (tx.page pg).flags &&& leafPageFlag ≠ 0
      · rw [if_pos hl] at hint
        rw [if_pos hl] at hne
        rw [if_pos hl]
        injection hint with h1
        have hleaf : leafLoop pg hi (st ++ [pg]) kts (tx.page pg).leafElems 0 lo = [] :=
          congrArg Prod.fst h1
        have hretl : ((tx.page pg).leafElems.getLast?).map (fun e => e.key) = ret :=
          congrArg Prod.snd h1
        have hnbt : (!(tx.page pg).leafElems.isEmpty) = true := Option.some.injEq _ _ ▸ hne
        have hni : (tx.page pg).leafElems.isEmpty = false := by
          cases hii : (tx.page pg).leafElems.isEmpty
          · rfl
          · rw [hii] at hnbt; exact absurd hnbt (by decide)
        have hnonnil : (tx.page pg).leafElems ≠ [] := by
          simp only [List.isEmpty_iff] at hni
          intro hh
          rw [hh] at hni
          simp at hni
        obtain ⟨hupf, hlowf, hlast⟩ :=
          leafLoop_nil_facts pg hi (st ++ [pg]) kts (tx.page pg).leafElems 0 lo hleaf
        cases hgl : (tx.page pg).leafElems.getLast? with
        | none => exact absurd (List.getLast?_eq_none_iff.mp hgl) hnonnil
        | some el =>
          have helmem : el ∈ (tx.page pg).leafElems := List.mem_of_mem_getLast? (hgl ▸ rfl)
          refine ⟨(tx.page pg).leafElems.map (fun e => e.key), el.key, rfl, ?_, ?_, ?_, ?_, ?_⟩
          · rw [← hretl, hgl]
            rfl
          · exact List.mem_map_of_mem _ helmem
          · intro k hk
            obtain ⟨e2, he2, hke⟩ := List.mem_map.mp hk
            rw [← hke]
            exact hlast el hgl e2 he2
          · intro l hlo k hk
            obtain ⟨e2, he2, hke⟩ := List.mem_map.mp hk
            rw [← hke]
            exact (hlowf l hlo e2 he2).1 rfl
          · intro h2 hhi k hk
            obtain ⟨e2, he2, hke⟩ := List.mem_map.mp hk
            rw [← hke]
            exact hupf h2 hhi e2 he2
      · rw [if_neg hl] at hint
        injection hint with h1
        have hcontr : [Finding.unexpectedPageType pg] = ([] : List Finding) :=
          congrArg Prod.fst h1
        exact absurd hcontr (by simp)

/-- C6 (amended): when the key-order validation of a subtree emits no
findings and every page of the subtree carries at least one element, the
returned `maxKeyInSubtree` is the greatest key stored anywhere in the
subtree; and unconditionally the returned key (when present) is one of the
subtree's keys, so a subtree holding no keys returns `none`.  Without the
well-formedness hypotheses the function merely returns the last element of
the rightmost descent (see the counterexample). -/
theorem recursivelyCheckPages_max_key (tx : Tx) (fuel : Nat) (pg : Pgid) (lo hi : Option Key)
    (st : List Pgid) (kts : Key → String) :
    (∀ ret, recursivelyCheckPagesInternal tx fuel pg lo hi st kts = some ([], ret) →
        nonemptyPages tx fuel pg = some true →
        ∃ ks m, subtreeKeys tx fuel pg = some ks ∧ ret = some m ∧ m ∈ ks
          ∧ ∀ k ∈ ks, keyLe k m)
      ∧ (∀ fs ret, recursivelyCheckPagesInternal tx fuel pg lo hi st kts = some (fs, ret) →
          subtreeKeys tx fuel pg = some [] → ret = none) := by
  constructor
  · intro ret h1 h2
    obtain ⟨ks, m, hks, hret, hmem, hmax, _, _⟩ := maxSpecP_all tx fuel pg lo hi st kts ret h1 h2
    exact ⟨ks, m, hks, hret, hmem, hmax⟩
  · intro fs ret h1 h2
    cases hr : ret with
    | none => rfl
    | some m =>
      exact absurd (retMemP_all tx fuel pg lo hi st kts fs ret [] m h1 h2 hr)
        (List.not_mem_nil m)

/-- Witness for `recursivelyCheckPages_max_key`: the sorted leaf ["a","b"]
returns its greatest key, and the empty leaf returns `none`. -/
theorem recursivelyCheckPages_max_key_witness :
    (∃ ks m, subtreeKeys txC6w 1 2 = some ks ∧ (some [98] : Option Key) = some m ∧ m ∈ ks
        ∧ ∀ k ∈ ks, keyLe k m)
      ∧ (none : Option Key) = none :=
  ⟨(recursivelyCheckPages_max_key txC6w 1 2 none none [] kts0).1 (some [98])
      (by decide) (by decide),
   (recursivelyCheckPages_max_key txC6e 1 2 none none [] kts0).2 [] none
      (by decide) (by decide)⟩

/-- C6 (counterexample): on the out-of-order leaf ["b","a"] (page 2 of
`txC6`) the validator returns the last element key "a" = [97], although the
subtree also holds the strictly greater key "b" = [98] — so in general the
returned value is not the greatest key of the subtree. -/
theorem leaf_last_key_not_maximum :
    recursivelyCheckPagesInternal txC6 1 2 none none [] kts0
        = some ([Finding.leafOutOfOrder 1 "" 2 "" [2]], some [97])
      ∧ subtreeKeys txC6 1 2 = some [[98], [97]]
      ∧ compareKeys [97] [98] = Ordering.lt :=
  ⟨by decide, by decide, by decide⟩

theorem leafLoop_shape (pg : Pgid) (mko : Option Key) (st : List Pgid) (k1 k2 : Key → String) :
    ∀ (es : List LeafElem) (i : Nat) (rm : Option Key),
    (leafLoop pg mko st k1 es i rm).map Finding.shape
      = (leafLoop pg mko st k2 es i rm).map Finding.shape := by
  intro es
  induction es with
  | nil => intro i rm; rfl
  | cons e es2 ih =>
    intro i rm
    have hih := ih (i + 1) (some e.key)
    cases rm with
    | none =>
      cases mko with
      | none =>
        simp [leafLoop, List.map_append, apply_ite (List.map Finding.shape),
          Finding.shape, hih]
      | some mk =>
        simp [leafLoop, List.map_append, apply_ite (List.map Finding.shape),
          Finding.shape, hih]
    | some r =>
      cases mko with
      | none =>
        simp [leafLoop, List.map_append, apply_ite (List.map Finding.shape),
          Finding.shape, hih]
      | some mk =>
        simp [leafLoop, List.map_append, apply_ite (List.map Finding.shape),
          Finding.shape, hih]

theorem branchLoop_shape (pg : Pgid) (mko : Option Key) (st : List Pgid) (k1 k2 : Key → String)
    (r1 r2 : Pgid → Option Key → Option Key → Option (List Finding × Option Key))
    (hrec : ∀ cpg lo hi, shapePair (r1 cpg lo hi) = shapePair (r2 cpg lo hi)) :
    ∀ (es : List BranchElem) (i : Nat) (rm ms : Option Key),
    shapePair (branchLoop pg mko st k1 r1 es i rm ms)
      = shapePair (branchLoop pg mko st k2 r2 es i rm ms) := by
  intro es
  induction es with
  | nil => intro i rm ms; rfl
  | cons e es2 ih =>
    intro i rm ms
    have hc := hrec e.pgid (some e.key) (nextSeparator es2 mko)
    cases hc1 : r1 e.pgid (some e.key) (nextSeparator es2 mko) with
    | none =>
      rw [hc1] at hc
      cases hc2 : r2 e.pgid (some e.key) (nextSeparator es2 mko) with
      | none => simp only [branchLoop, hc1, hc2]
      | some c2 => rw [hc2] at hc; exact Option.noConfusion hc
    | some c1 =>
      rw [hc1] at hc
      cases hc2 : r2 e.pgid (some e.key) (nextSeparator es2 mko) with
      | none => rw [hc2] at hc; exact Option.noConfusion hc
      | some c2 =>
        rw [hc2] at hc
        simp only [shapePair, Option.map, Option.some.injEq, Prod.mk.injEq] at hc
        obtain ⟨hcf, hcs⟩ := hc
        have hrest := ih (i + 1) c1.2 c1.2
        rw [hcs] at hrest
        simp only [branchLoop, hc1, hc2]
        rw [hcs]
        cases hb1 : branchLoop pg mko st k1 r1 es2 (i + 1) c2.2 c2.2 with
        | none =>
          rw [hb1] at hrest
          cases hb2 : branchLoop pg mko st k2 r2 es2 (i + 1) c2.2 c2.2 with
          | none => rfl
          | some rr2 =>
            rw [hb2] at hrest
            exact Option.noConfusion hrest
        | some rr1 =>
          rw [hb1] at hrest
          cases hb2 : branchLoop pg mko st k2 r2 es2 (i + 1) c2.2 c2.2 with
          | none => rw [hb2] at hrest; exact Option.noConfusion hrest
          | some rr2 =>
            rw [hb2] at hrest
            simp only [shapePair, Option.map, Option.some.injEq, Prod.mk.injEq] at hrest
            obtain ⟨hrf, hrs⟩ := hrest
            simp only [shapePair, Option.map, Option.some.injEq, Prod.mk.injEq]
            constructor
            · simp only [List.map_append, hcf, hrf]
              cases mko with
              | none =>
                by_cases hi : i = 0 <;>
                  cases rm <;>
                    simp [apply_ite (List.map Finding.shape), Finding.shape, hi]
              | some mk =>
                by_cases hi : i = 0 <;>
                  cases rm <;>
                    simp [apply_ite (List.map Finding.shape), Finding.shape, hi]
            · exact hrs

theorem shapePair_eq_cases {o1 o2 : Option (List Finding × Option Key)}
    (h : shapePair o1 = shapePair o2) :
    (o1 = none ∧ o2 = none)
      ∨ ∃ p1 p2, o1 = some p1 ∧ o2 = some p2
          ∧ p1.1.map Finding.shape = p2.1.map Finding.shape ∧ p1.2 = p2.2 := by
  cases o1 with
  | none =>
    cases o2 with
    | none => exact Or.inl ⟨rfl, rfl⟩
    | some p2 => exact Option.noConfusion h
  | some p1 =>
    cases o2 with
    | none => exact Option.noConfusion h
    | some p2 =>
      simp only [shapePair, Option.map, Option.some.injEq, Prod.mk.injEq] at h
      exact Or.inr ⟨p1, p2, rfl, rfl, h.1, h.2⟩

theorem shapePairR_eq_cases {o1 o2 : Option (List Finding × (Pgid → Option Page))}
    (h : shapePairR o1 = shapePairR o2) :
    (o1 = none ∧ o2 = none)
      ∨ ∃ p1 p2, o1 = some p1 ∧ o2 = some p2
          ∧ p1.1.map Finding.shape = p2.1.map Finding.shape ∧ p1.2 = p2.2 := by
  cases o1 with
  | none =>
    cases o2 with
    | none => exact Or.inl ⟨rfl, rfl⟩
    | some p2 => exact Option.noConfusion h
  | some p1 =>
    cases o2 with
    | none => exact Option.noConfusion h
    | some p2 =>
      simp only [shapePairR, Option.map, Option.some.injEq, Prod.mk.injEq] at h
      exact Or.inr ⟨p1, p2, rfl, rfl, h.1, h.2⟩

theorem internal_shape (tx : Tx) (k1 k2 : Key → String) :
    ∀ (fuel : Nat) (pg : Pgid) (lo hi : Option Key) (st : List Pgid),
    shapePair (recursivelyCheckPagesInternal tx fuel pg lo hi st k1)
      = shapePair (recursivelyCheckPagesInternal tx fuel pg lo hi st k2) := by
  intro fuel
  induction fuel with
  | zero => intro pg lo hi st; rfl
  | succ f ih =>
    intro pg lo hi st
    simp only [recursivelyCheckPagesInternal]
    by_cases hb : (tx.page pg).flags &&& branchPageFlag ≠ 0
    · rw [if_pos hb, if_pos hb]
      exact branchLoop_shape pg hi (st ++ [pg]) k1 k2 _ _
        (fun cpg lo2 hi2 => ih cpg lo2 hi2 (st ++ [pg])) _ 0 lo none
    · rw [if_neg hb, if_neg hb]
      by_cases hl : (tx.page pg).flags &&& leafPageFlag ≠ 0
      · rw [if_pos hl, if_pos hl]
        simp only [shapePair, Option.map, Option.some.injEq, Prod.mk.injEq]
        exact ⟨leafLoop_shape pg hi (st ++ [pg]) k1 k2 _ 0 lo, trivial⟩
      · rw [if_neg hl, if_neg hl]

mutual
theorem checkBucket_shape (tx : Tx) (fuel : Nat) (k1 k2 : Key → String) (b : Bucket)
    (r : Pgid → Option Page) (f : Pgid → Bool) :
    shapePairR (checkBucket tx fuel b r f k1) = shapePairR (checkBucket tx fuel b r f k2) := by
  cases b with
  | node root children =>
    by_cases hr : root = 0
    · simp [checkBucket, hr]
    · simp only [checkBucket, if_neg hr]
      cases hfe : forEachPageList tx fuel root with
      | none => rfl
      | some pages =>
        rcases shapePair_eq_cases (internal_shape tx k1 k2 fuel root none none []) with
          ⟨hn1, hn2⟩ | ⟨p1, p2, hs1, hs2, hpf, hps⟩
        · simp only [recursivelyCheckPages, hn1, hn2]
        · simp only [recursivelyCheckPages, hs1, hs2]
          rcases shapePairR_eq_cases (checkBuckets_shape tx fuel k1 k2 children
              (pages.foldl (fun acc p => visitPage tx f p acc) ([], r)).2 f) with
            ⟨hm1, hm2⟩ | ⟨q1, q2, hq1, hq2, hqf, hqs⟩
          · simp only [hm1, hm2]
          · simp only [hq1, hq2, shapePairR, Option.map, Option.some.injEq, Prod.mk.injEq]
            constructor
            · simp only [List.map_append, hpf, hqf]
            · exact hqs
theorem checkBuckets_shape (tx : Tx) (fuel : Nat) (k1 k2 : Key → String) (bs : List Bucket)
    (r : Pgid → Option Page) (f : Pgid → Bool) :
    shapePairR (checkBuckets tx fuel bs r f k1) = shapePairR (checkBuckets tx fuel bs r f k2) := by
  cases bs with
  | nil => rfl
  | cons b rest =>
    simp only [checkBuckets]
    rcases shapePairR_eq_cases (checkBucket_shape tx fuel k1 k2 b r f) with
      ⟨h1, h2⟩ | ⟨p1, p2, h1, h2, hpf, hps⟩
    · simp only [h1, h2]
    · simp only [h1, h2]
      rw [hps]
      rcases shapePairR_eq_cases (checkBuckets_shape tx fuel k1 k2 rest p2.2 f) with
        ⟨g1, g2⟩ | ⟨q1, q2, g1, g2, hqf, hqs⟩
      · simp only [g1, g2]
      · simp only [g1, g2, shapePairR, Option.map, Option.some.injEq, Prod.mk.injEq]
        constructor
        · simp only [List.map_append, hpf, hqf]
        · exact hqs
end

/-- C7: the injected key stringer has no influence on defect detection —
for any two stringers, the full check produces finding streams of the same
length whose findings agree position by position on kind, page ids,
element indices and ancestor stacks (everything except the formatted
text), and the traversal outcome (including fuel exhaustion) is
identical. -/
theorem check_stringer_independent (tx : Tx) (fuel : Nat) (b : Bucket) (k1 k2 : Key → String) :
    (txCheck tx fuel b k1).map (List.map Finding.shape)
      = (txCheck tx fuel b k2).map (List.map Finding.shape) := by
  simp only [txCheck]
  rcases shapePairR_eq_cases (checkBucket_shape tx fuel k1 k2 b (seedReachable tx)
      (freeScan tx.freelistIds fun _ => false).2) with
    ⟨h1, h2⟩ | ⟨p1, p2, h1, h2, hpf, hps⟩
  · simp only [h1, h2]
  · simp only [h1, h2]
    rw [hps]
    simp only [Option.map, Option.some.injEq, List.map_append, hpf]
